import Mathlib

/-!
Verification of the langextract document-processing core against its
natural-language specification.

The development shallowly embeds the Python sources:

* `document_processor/chunker.py`   — text normalization, paragraph and
  sentence splitting, greedy chunk accumulation with overlap seeding, the
  size-optimization pass (split / merge / re-index), and table / image chunks;
* `core/schema_extractor.py`        — per-schema field retention with a
  confidence threshold, required-field all-or-nothing enforcement, and the
  `schema_matches` accumulation loop of `extract_from_chunk`;
* `core/schema_loader.py`           — schema / vocabulary registry state,
  `validate_schema_references`, and eager loading;
* `document_processor/processor.py` — embedding validation at the storage
  boundary and document-level metadata aggregation.

Strings are modelled as `List Char` (Python `str` is indexed by characters,
which matches this representation exactly).  Python floats used only as
confidence scores and chunk indices are modelled as `ℚ`; every claim settled
here depends only on ordering and exact small decimal arithmetic, never on
IEEE rounding.  Fallible paths (`ValueError` from tuple unpacking) are
modelled with `Except Unit`.
-/

/-! ## Character class helpers (Python `\s`, control-character ranges) -/

/-- Python `str.isspace` / regex `\s` for the ASCII range: space, tab,
newline, carriage return, vertical tab, form feed. -/
def isPySpace (c : Char) : Bool :=
  c == ' ' || c == '\t' || c == '\n' || c == '\r' || c == '\x0b' || c == '\x0c'

/-- The character class removed by `_clean_text`'s second regex:
`[\x00-\x08\x0b\x0c\x0e-\x1f\x7f-\x9f]`. -/
def isCtrlChar (c : Char) : Bool :=
  decide (c.toNat ≤ 0x08) || c.toNat == 0x0b || c.toNat == 0x0c ||
  (decide (0x0e ≤ c.toNat) && decide (c.toNat ≤ 0x1f)) ||
  (decide (0x7f ≤ c.toNat) && decide (c.toNat ≤ 0x9f))

/-! ## `_clean_text` (chunker.py lines 221-232) -/

/-- `re.sub(r'\s+', ' ', text)`: every maximal whitespace run becomes a single
space.  The flag records whether the previous character was part of a
whitespace run whose replacement space has already been emitted. -/
def collapseWSGo : Bool → List Char → List Char
  | _, [] => []
  | prevWS, c :: cs =>
    if isPySpace c then
      if prevWS then collapseWSGo true cs else ' ' :: collapseWSGo true cs
    else c :: collapseWSGo false cs

def collapseWS (l : List Char) : List Char := collapseWSGo false l

/-- `re.sub(r'[\x00-\x08\x0b\x0c\x0e-\x1f\x7f-\x9f]', '', text)`. -/
def removeCtrl (l : List Char) : List Char := l.filter fun c => !isCtrlChar c

/-- `re.sub(r'\r\n|\r', '\n', text)`. -/
def normalizeCR : List Char → List Char
  | [] => []
  | [c] => if c == '\r' then ['\n'] else [c]
  | c :: d :: rest =>
    if c == '\r' then
      if d == '\n' then '\n' :: normalizeCR rest
      else '\n' :: normalizeCR (d :: rest)
    else c :: normalizeCR (d :: rest)

/-- Python `str.strip()`: drop leading whitespace, then trailing whitespace. -/
def pyStrip (l : List Char) : List Char :=
  (l.dropWhile isPySpace).rdropWhile isPySpace

/-- `_clean_text`: collapse whitespace, strip control characters, normalize
line breaks, strip.  Note the source collapses whitespace *first*, so no
newline survives into the result. -/
def cleanText (l : List Char) : List Char :=
  pyStrip (normalizeCR (removeCtrl (collapseWS l)))

/-! ## `_split_into_paragraphs` (chunker.py lines 234-242) -/

/-- Position of the last occurrence of a character (Python `str.rfind`, as an
index into the list when present). -/
def lastIdxOf (a : Char) : List Char → Option Nat
  | [] => none
  | c :: cs =>
    match lastIdxOf a cs with
    | some k => some (k + 1)
    | none => if c == a then some 0 else none

/-- `re.split(r'\n\s*\n', text)`: scan for a newline followed by a whitespace
run containing a further newline; a (greedy, leftmost) match consumes through
the last newline of that run.  The fuel argument — always instantiated with
the input length, an upper bound on the number of characters every recursive
call can still consume — makes the recursion structural so that the
definition evaluates by kernel reduction; the zero-fuel equation is never
reached. -/
def splitBlankFuel : Nat → List Char → List Char → List (List Char)
  | _, acc, [] => [acc.reverse]
  | 0, acc, l => [acc.reverse ++ l]
  | fuel + 1, acc, c :: cs =>
    if c == '\n' then
      match lastIdxOf '\n' (cs.takeWhile isPySpace) with
      | some k => acc.reverse :: splitBlankFuel fuel [] (cs.drop (k + 1))
      | none => splitBlankFuel fuel (c :: acc) cs
    else splitBlankFuel fuel (c :: acc) cs

def splitBlankGo (acc l : List Char) : List (List Char) :=
  splitBlankFuel l.length acc l

/-- `_split_into_paragraphs`: split on blank-line boundaries, strip each
piece, drop empty pieces. -/
def splitIntoParagraphs (l : List Char) : List (List Char) :=
  ((splitBlankGo [] l).map pyStrip).filter fun p => !p.isEmpty

/-! ## `ChunkConfig` (chunker.py lines 14-21) -/

structure ChunkCfg where
  maxChunkSize : Nat
  minChunkSize : Nat
  overlapSize : Nat
  preserveSentences : Bool
  preserveParagraphs : Bool

/-- The dataclass defaults (1000 / 200 / 100 / True / True). -/
def defaultChunkCfg : ChunkCfg := ⟨1000, 200, 100, true, true⟩

/-! ## `_get_overlap_text` (chunker.py lines 244-262) -/

/-- The sentence-boundary trim: `overlap_text.rfind('.')`, applied when the
found index exceeds `overlap_size // 2` (an absent `.` yields `-1`, which is
never greater). -/
def overlapTrimSentence (cfg : ChunkCfg) (ot : List Char) : List Char :=
  match lastIdxOf '.' ot with
  | some k => if cfg.overlapSize / 2 < k then ot.drop (k + 1) else ot
  | none => ot

/-- The word-boundary trim: `overlap_text.rfind(' ')`, applied when the found
index is strictly positive. -/
def overlapTrimWord (ot : List Char) : List Char :=
  match lastIdxOf ' ' ot with
  | some k => if 0 < k then ot.drop (k + 1) else ot
  | none => ot

/-- `_get_overlap_text`.  Mirrors the source exactly: whole text when it fits
inside `overlap_size`; otherwise take the last `overlap_size` characters
(Python `text[-0:]` is the whole string, hence the zero test), trim past the
last sentence boundary when it sits in the second half, trim past the last
interior word boundary, and append one space. -/
def getOverlapText (cfg : ChunkCfg) (text : List Char) : List Char :=
  if text.length ≤ cfg.overlapSize then text
  else
    overlapTrimWord
      (overlapTrimSentence cfg
        (if cfg.overlapSize == 0 then text
         else text.drop (text.length - cfg.overlapSize))) ++ [' ']

/-! ## Chunk records (chunker.py) -/

/-- A small universe of Python/JSON values, used for metadata payloads that
are carried through the pipeline without being inspected. -/
inductive PyVal where
  | pnull
  | pbool (b : Bool)
  | pnum (q : ℚ)
  | pstr (s : List Char)
  | plist (l : List PyVal)
  | pdict (l : List (List Char × PyVal))

/-- The chunk `metadata` dictionary.  The keys read or written by the
chunking / optimization code are modelled as fields; absent dictionary keys
are `none` / `0` (the source only ever reads them through `.get(key, 0)`).
The regex-derived enrichment keys of `_extract_chunk_metadata` (`headers`,
`dates`, `numbers`, `entities`) are not modelled: no claim mentions them and
nothing in the pipeline reads them back. -/
structure ChunkMeta where
  chunk_type : List Char
  length : Nat
  word_count : Nat
  midx : Nat
  merged_chunks : Nat
  parent_chunk : Option (List Char)
  sub_chunk_index : Option Nat
  table_index : Option Nat
  image_index : Option Nat
  aux_meta : Option PyVal

structure Chunk where
  chunk_id : List Char
  document_id : List Char
  chunk_index : ℚ
  content : List Char
  content_type : List Char
  metadata : ChunkMeta

/-- Number of `str.split()` tokens (maximal non-whitespace runs). -/
def countWordsGo : Bool → List Char → Nat
  | _, [] => 0
  | inWord, c :: cs =>
    if isPySpace c then countWordsGo false cs
    else (if inWord then 0 else 1) + countWordsGo true cs

def wordCount (l : List Char) : Nat := countWordsGo false l

/-- Decimal digits of `n` (Python `str(n)`). -/
def natChars (n : Nat) : List Char := Nat.toDigits 10 n

/-- `f"{chunk_index:03d}"`. -/
def pad3 (n : Nat) : List Char :=
  let d := natChars n
  List.replicate (3 - d.length) '0' ++ d

/-- `_create_text_chunk` plus the modelled part of `_extract_chunk_metadata`. -/
def mkTextChunk (docId ctype text : List Char) (idx : Nat) : Chunk :=
  { chunk_id := docId ++ "_chunk_".data ++ pad3 idx
    document_id := docId
    chunk_index := (idx : ℚ)
    content := text
    content_type := ctype
    metadata :=
      { chunk_type := "text".data, length := text.length,
        word_count := wordCount text, midx := idx, merged_chunks := 0,
        parent_chunk := none, sub_chunk_index := none, table_index := none,
        image_index := none, aux_meta := none } }

/-! ## `_chunk_text` greedy accumulation loop (chunker.py lines 96-118) -/

/-- The paragraph-accumulation loop of `_chunk_text`: before adding a
paragraph that would push the buffer past `max_chunk_size` (with a non-empty
stripped buffer), finalize the buffer and seed the next one with
`_get_overlap_text(buffer) + paragraph`; otherwise append the paragraph and a
blank line.  After the loop the remaining buffer, if non-empty once stripped,
becomes the final chunk. -/
def chunkTextLoop (cfg : ChunkCfg) (docId ctype : List Char) :
    List (List Char) → List Char → Nat → List Chunk
  | [], cur, idx =>
    if (pyStrip cur).isEmpty then []
    else [mkTextChunk docId ctype (pyStrip cur) idx]
  | p :: ps, cur, idx =>
    if cfg.maxChunkSize < cur.length + p.length ∧ ¬(pyStrip cur).isEmpty then
      mkTextChunk docId ctype (pyStrip cur) idx ::
        chunkTextLoop cfg docId ctype ps (getOverlapText cfg cur ++ p) (idx + 1)
    else chunkTextLoop cfg docId ctype ps (cur ++ p ++ "\n\n".data) idx

/-! ## `_split_large_chunk` (chunker.py lines 293-343) -/

/-- `re.split(r'(?<=[.!?])\s+', content)`: a whitespace character whose
predecessor (the accumulator head) is a sentence terminator starts a match
that greedily consumes the whole whitespace run. -/
def splitSentFuel : Nat → List Char → List Char → List (List Char)
  | _, acc, [] => [acc.reverse]
  | 0, acc, l => [acc.reverse ++ l]
  | fuel + 1, acc, c :: cs =>
    if isPySpace c &&
        (match acc with
         | p :: _ => p == '.' || p == '!' || p == '?'
         | [] => false) then
      acc.reverse :: splitSentFuel fuel [] (cs.dropWhile isPySpace)
    else splitSentFuel fuel (c :: acc) cs

def splitSentences (l : List Char) : List (List Char) :=
  splitSentFuel l.length [] l

/-- Sub-chunk record built inside `_split_large_chunk`: decimal fractional
index `base + n*0.1`, metadata copied from the parent and tagged. -/
def mkSubChunk (base : Chunk) (docId : List Char) (subIdx : Nat)
    (text : List Char) : Chunk :=
  { chunk_id := base.chunk_id ++ "_sub_".data ++ natChars subIdx
    document_id := docId
    chunk_index := base.chunk_index + (subIdx : ℚ) * (1 / 10)
    content := text
    content_type := base.content_type
    metadata := { base.metadata with
      parent_chunk := some base.chunk_id, sub_chunk_index := some subIdx } }

/-- The sentence-accumulation loop of `_split_large_chunk`.  Note the flush
condition tests raw (unstripped) buffer non-emptiness, the flushed content is
stripped, and sentences are rejoined with a single space. -/
def splitLargeLoop (cfg : ChunkCfg) (base : Chunk) (docId : List Char) :
    List (List Char) → List Char → Nat → List Chunk
  | [], cur, si =>
    if (pyStrip cur).isEmpty then []
    else [mkSubChunk base docId si (pyStrip cur)]
  | s :: ss, cur, si =>
    if cfg.maxChunkSize < cur.length + s.length ∧ ¬cur.isEmpty then
      mkSubChunk base docId si (pyStrip cur) ::
        splitLargeLoop cfg base docId ss s (si + 1)
    else
      splitLargeLoop cfg base docId ss
        (if cur.isEmpty then s else cur ++ " ".data ++ s) si

def splitLargeChunk (cfg : ChunkCfg) (docId : List Char) (c : Chunk) :
    List Chunk :=
  splitLargeLoop cfg c docId (splitSentences c.content) [] 0

/-! ## `_optimize_chunk_sizes` (chunker.py lines 264-291) -/

/-- One iteration of the optimization loop.  Faithful to the source,
including the fact that the oversized branch has no `continue`: the original
oversized chunk is appended *after* its sub-chunks.  The undersized branch
merges into the last accumulated chunk (joining with a blank line and
incrementing the `merged_chunks` counter) only when the combined length stays
within `max_chunk_size`. -/
def optStep (cfg : ChunkCfg) (docId : List Char) (acc : List Chunk)
    (c : Chunk) : List Chunk :=
  if cfg.maxChunkSize < c.content.length then
    (acc ++ splitLargeChunk cfg docId c) ++ [c]
  else if c.content.length < cfg.minChunkSize ∧ ¬acc.isEmpty then
    match acc.getLast? with
    | some last =>
      if last.content.length + c.content.length ≤ cfg.maxChunkSize then
        acc.dropLast ++
          [{ last with
              content := last.content ++ "\n\n".data ++ c.content,
              metadata := { last.metadata with
                merged_chunks := last.metadata.merged_chunks + 1 } }]
      else acc ++ [c]
    | none => acc ++ [c]
  else acc ++ [c]

/-- The final re-index loop: surviving chunks get consecutive integer
indices in list order. -/
def reindexFrom (n : Nat) : List Chunk → List Chunk
  | [] => []
  | c :: cs => { c with chunk_index := (n : ℚ) } :: reindexFrom (n + 1) cs

def optimizeChunkSizes (cfg : ChunkCfg) (docId : List Char)
    (chunks : List Chunk) : List Chunk :=
  reindexFrom 0 (chunks.foldl (optStep cfg docId) [])

/-! ## `_chunk_text` top level (chunker.py lines 81-123) -/

def chunkText (cfg : ChunkCfg) (docId ctype text : List Char) : List Chunk :=
  if text.isEmpty || (pyStrip text).isEmpty then []
  else
    optimizeChunkSizes cfg docId
      (chunkTextLoop cfg docId ctype (splitIntoParagraphs (cleanText text)) [] 0)

/-! ## Tables, images and `chunk_content` (chunker.py lines 40-79, 125-169) -/

structure TableInput where
  content : List Char
  metadata : PyVal

structure ImageInput where
  content : List Char
  metadata : PyVal

structure DocContent where
  text : List Char
  tables : List TableInput
  images : List ImageInput

/-- `_chunk_table`: a non-empty table becomes a single chunk with index
`1000 + i`; keys absent from its metadata dict are modelled by `0` / `none`. -/
def chunkTable (docId : List Char) (i : Nat) (t : TableInput) : List Chunk :=
  if (pyStrip t.content).isEmpty then []
  else
    [{ chunk_id := docId ++ "_table_".data ++ natChars i
       document_id := docId
       chunk_index := ((1000 + i : Nat) : ℚ)
       content := t.content
       content_type := "table".data
       metadata :=
         { chunk_type := "table".data, length := 0, word_count := 0, midx := 0,
           merged_chunks := 0, parent_chunk := none, sub_chunk_index := none,
           table_index := some i, image_index := none,
           aux_meta := some t.metadata } }]

/-- `_create_image_chunk`: always a single chunk with index `2000 + i`. -/
def mkImageChunk (docId : List Char) (i : Nat) (img : ImageInput) : Chunk :=
  { chunk_id := docId ++ "_image_".data ++ natChars i
    document_id := docId
    chunk_index := ((2000 + i : Nat) : ℚ)
    content := "Image ".data ++ natChars (i + 1) ++ ": ".data ++ img.content
    content_type := "image".data
    metadata :=
      { chunk_type := "image".data, length := 0, word_count := 0, midx := 0,
        merged_chunks := 0, parent_chunk := none, sub_chunk_index := none,
        table_index := none, image_index := some i,
        aux_meta := some img.metadata } }

/-- Stable insertion into a list sorted by `chunk_index` (the new element
lands after existing elements with an equal or smaller key), modelling
Python's stable `list.sort(key=chunk_index)`. -/
def insSorted (c : Chunk) : List Chunk → List Chunk
  | [] => [c]
  | d :: ds =>
    if c.chunk_index < d.chunk_index then c :: d :: ds else d :: insSorted c ds

def sortByIdx (l : List Chunk) : List Chunk := l.foldl (fun acc c => insSorted c acc) []

/-- `chunk_content`: text chunks (when `content['text']` is truthy), then
table chunks, then image chunks, sorted by `chunk_index`. -/
def chunkContent (cfg : ChunkCfg) (docId : List Char) (dc : DocContent) :
    List Chunk :=
  let t := if dc.text.isEmpty then [] else chunkText cfg docId ("text".data) dc.text
  let tbs := (dc.tables.enum.map fun p => chunkTable docId p.1 p.2).flatten
  let ims := dc.images.enum.map fun p => mkImageChunk docId p.1 p.2
  sortByIdx (t ++ tbs ++ ims)

/-! ## Schemas and the field extractor (core/schema_extractor.py) -/

/-- A field definition from a schema JSON file: the keys the extractor
dispatches on. -/
structure FieldDef where
  ftype : List Char
  enum : Option (List (List Char))
  enum_ref : Option (List Char)
deriving DecidableEq

/-- A loaded schema.  `fields = none` models a schema dict without a
`'fields'` key; `required` / `spans` default to `[]` exactly as the source
reads them through `.get(..., [])`. -/
structure SchemaDef where
  sid : Option (List Char)
  fields : Option (List (List Char × FieldDef))
  required : List (List Char)
  spans : List (List Char)
deriving DecidableEq

/-- Extracted field values (`value` keys of the extractor results). -/
inductive ExtVal where
  | vstr (s : List Char)
  | vnum (q : ℚ)
  | vlist (l : List ExtVal)
  | vobj (l : List (List Char × ExtVal))

/-- An extractor result dict `{'value': ..., 'confidence': ...}`. -/
structure FieldOut where
  value : ExtVal
  confidence : ℚ

/-- The options dict passed to `extract_from_chunk`; `confidence_threshold`
is read through `.get('confidence_threshold', 0.7)`. -/
structure ExtractOptions where
  confidence_threshold : Option ℚ
  extract_entities : Bool
  extract_categories : Bool

/-- First-match association lookup (Python dict `get` on our assoc-list
model of dicts — keys are unique in dicts parsed from JSON, and every
modelled write goes through `dictInsert` below, which preserves uniqueness). -/
def assocLookup {α : Type} (k : List Char) : List (List Char × α) → Option α
  | [] => none
  | p :: ps => if p.1 = k then some p.2 else assocLookup k ps

/-- Python dict assignment `d[k] = v`: replace in place when the key exists,
otherwise append. -/
def dictInsert {α : Type} (k : List Char) (v : α) :
    List (List Char × α) → List (List Char × α)
  | [] => [(k, v)]
  | p :: ps => if p.1 = k then (k, v) :: ps else p :: dictInsert k v ps

/-- The type of `self._extract_field`: given the chunk text, a field name,
its definition and the enclosing schema, produce a result dict or `None`
(the source returns `None` for unknown field types).  The claims about
`_apply_schema` / `extract_from_chunk` hold for *every* such function, in
particular for the concrete regex-based extractor of the source. -/
def FieldExtractor : Type :=
  List Char → List Char → FieldDef → SchemaDef → Option FieldOut

/-- The retention step of `_apply_schema`'s field loop: keep
`extracted_fields[name] = value` exactly when the extractor returned a dict
whose confidence reaches the threshold. -/
def retainStep (extractF : FieldExtractor) (text : List Char)
    (schema : SchemaDef) (threshold : ℚ)
    (acc : List (List Char × ExtVal)) (p : List Char × FieldDef) :
    List (List Char × ExtVal) :=
  match extractF text p.1 p.2 schema with
  | some fv => if threshold ≤ fv.confidence then dictInsert p.1 fv.value acc else acc
  | none => acc

/-- `_apply_schema` (schema_extractor.py lines 79-112): `None` when the
schema has no `fields` key; otherwise score every field, and if `required`
is non-empty and some required field is missing from the retained set,
return `None` (all-or-nothing); else return the retained dict. -/
def applySchema (extractF : FieldExtractor) (text : List Char)
    (schema : SchemaDef) (opts : ExtractOptions) :
    Option (List (List Char × ExtVal)) :=
  match schema.fields with
  | none => none
  | some fl =>
    let threshold := opts.confidence_threshold.getD (7 / 10)
    let extracted := fl.foldl (retainStep extractF text schema threshold) []
    if schema.required.isEmpty then some extracted
    else if schema.required.all fun f => (assocLookup f extracted).isSome then
      some extracted
    else none

/-- One iteration of the per-schema loop of `extract_from_chunk`
(schema_extractor.py lines 45-56): unknown names are skipped with a logged
warning; a schema contributes a `schema_matches` entry only when
`_apply_schema` returned a truthy (non-`None`, non-empty) dict. -/
def schemaLoopStep (extractF : FieldExtractor)
    (registry : List (List Char × SchemaDef)) (text : List Char)
    (opts : ExtractOptions)
    (acc : List (List Char × List (List Char × ExtVal))) (name : List Char) :
    List (List Char × List (List Char × ExtVal)) :=
  match assocLookup name registry with
  | some schema =>
    match applySchema extractF text schema opts with
    | some d => if d.isEmpty then acc else dictInsert name d acc
    | none => acc
  | none => acc

/-- The `schema_matches` component of `extract_from_chunk`'s result.  The
sibling result fields (`entities`, `categories`, `key_phrases`, timing
metadata) are computed independently of this loop and are not consulted by
any claim; like the loop itself, their construction contains no `raise`. -/
def extractSchemaMatches (extractF : FieldExtractor)
    (registry : List (List Char × SchemaDef)) (text : List Char)
    (names : List (List Char)) (opts : ExtractOptions) :
    List (List Char × List (List Char × ExtVal)) :=
  names.foldl (schemaLoopStep extractF registry text opts) []

/-! ## Schema loader (core/schema_loader.py) -/

/-- A vocabulary: `enum_name → [values]`. -/
def Vocab : Type := List (List Char × List (List Char))

/-- The loader's mutable state: the `schemas` and `vocabularies` dicts. -/
structure LoaderState where
  schemas : List (List Char × SchemaDef)
  vocabularies : List (List Char × Vocab)

def getSchemaL (st : LoaderState) (n : List Char) : Option SchemaDef :=
  assocLookup n st.schemas

def getVocabularyL (st : LoaderState) (n : List Char) : Option Vocab :=
  assocLookup n st.vocabularies

/-- `_load_core_schemas`: every parsed `(stem, schema)` file is inserted into
the schema dict unconditionally — no validity check of any kind happens at
load time.  The filesystem walk and JSON parsing are modelled by the list of
parsed files. -/
def loadCoreSchemas (files : List (List Char × SchemaDef)) (st : LoaderState) :
    LoaderState :=
  files.foldl (fun s p => { s with schemas := dictInsert p.1 p.2 s.schemas }) st

/-- Python `str.split('.')`. -/
def splitDot : List Char → List (List Char)
  | [] => [[]]
  | c :: cs =>
    if c == '.' then [] :: splitDot cs
    else
      match splitDot cs with
      | seg :: rest => (c :: seg) :: rest
      | [] => [[c]]

/-- Truthiness-faithful resolution test for `vocab_name.enum_name`:
`not vocab or enum_name not in vocab` is the *failure* condition in both
`validate_schema_references` and `_extract_enum_ref_field` (an empty vocab
dict is falsy). -/
def refResolves (st : LoaderState) (vnam enam : List Char) : Bool :=
  match getVocabularyL st vnam with
  | none => false
  | some v => !v.isEmpty && (assocLookup enam v).isSome

/-- Whether `enum_ref` (when present) splits into exactly the two parts the
source's tuple unpacking `vocab_name, enum_name = ref.split('.')` requires. -/
def refWellFormed (fd : FieldDef) : Bool :=
  match fd.enum_ref with
  | none => true
  | some r => (splitDot r).length == 2

/-- The field scan of `validate_schema_references`: the first unresolvable
`enum_ref` makes the whole schema invalid; a ref that does not split into two
parts raises `ValueError` (modelled as `.error`). -/
def validateFields (st : LoaderState) :
    List (List Char × FieldDef) → Except Unit Bool
  | [] => .ok true
  | (_, fd) :: rest =>
    match fd.enum_ref with
    | none => validateFields st rest
    | some r =>
      match splitDot r with
      | [v, e] =>
        if refResolves st v e then validateFields st rest else .ok false
      | _ => .error ()

/-- `validate_schema_references` (schema_loader.py lines 121-137). -/
def validateSchemaReferences (st : LoaderState) (name : List Char) :
    Except Unit Bool :=
  match getSchemaL st name with
  | none => .ok false
  | some s =>
    match s.fields with
    | none => .ok true
    | some fl => validateFields st fl

/-! ## `_extract_enum_ref_field` (schema_extractor.py lines 200-215) -/

def toLowerL (l : List Char) : List Char := l.map Char.toLower

/-- Whether `needle` occurs as a contiguous run inside `hay`
(Python `needle in hay` on strings). -/
def startsWithL : List Char → List Char → Bool
  | [], _ => true
  | _ :: _, [] => false
  | a :: as, b :: bs => a == b && startsWithL as bs

def containsSub (needle hay : List Char) : Bool :=
  if startsWithL needle hay then true
  else
    match hay with
    | [] => false
    | _ :: hs => containsSub needle hs

/-- The enum-value scan shared by the enum extractors: first value whose
lowercase form occurs in the lowercase text wins at confidence 0.9, else the
empty value at confidence 0. -/
def firstEnumMatch (text : List Char) : List (List Char) → FieldOut
  | [] => ⟨.vstr [], 0⟩
  | v :: rest =>
    if containsSub (toLowerL v) (toLowerL text) then ⟨.vstr v, 9 / 10⟩
    else firstEnumMatch text rest

/-- `_extract_enum_ref_field`: unpack `vocab.enum`, and when the vocabulary
or enum is missing (or the vocab dict is empty, which is falsy) return the
empty value at confidence 0.0 — never an error for an unresolvable
reference.  A ref without exactly one dot raises `ValueError` at the tuple
unpacking (`.error`); a call on a field without `enum_ref` would be a
`KeyError` (the dispatcher only calls this when the key is present). -/
def extractEnumRefField (st : LoaderState) (text : List Char)
    (fd : FieldDef) : Except Unit FieldOut :=
  match fd.enum_ref with
  | none => .error ()
  | some r =>
    match splitDot r with
    | [v, e] =>
      match getVocabularyL st v with
      | none => .ok ⟨.vstr [], 0⟩
      | some voc =>
        if voc.isEmpty then .ok ⟨.vstr [], 0⟩
        else
          match assocLookup e voc with
          | none => .ok ⟨.vstr [], 0⟩
          | some vals => .ok (firstEnumMatch text vals)
    | _ => .error ()

/-! ## Processed chunks and the storage boundary
(document_processor/processor.py) -/

/-- An entity dict `{'text', 'label', 'confidence'}` from chunk insights. -/
structure EntityRec where
  text : List Char
  label : List Char
  confidence : ℚ

/-- The `content_insights` sub-dict of a chunk's extracted metadata.
An absent or empty (falsy) dict is modelled as `none` at the field that
holds it. -/
structure InsightsRec where
  important_entities : List EntityRec
  document_sections : List PyVal
  action_items : List PyVal

/-- The `document_type_indicators` sub-dict of `text_analysis`. -/
structure TypeIndicators where
  likely_types : List (List Char)

structure TextAnalysisRec where
  document_type_indicators : Option TypeIndicators

/-- A chunk's `extracted_metadata` dict.  `errored` is the truthiness of
`.get('error')`; missing-or-falsy sub-dicts are `none`. -/
structure ExtractedMetaRec where
  errored : Bool
  langextract_result : Option PyVal
  content_insights : Option InsightsRec
  text_analysis : Option TextAnalysisRec

/-- A processed chunk as assembled by `_process_chunks`: the dict handed to
`_aggregate_document_metadata` and `_store_processed_chunks`.  A missing or
empty (falsy) `extracted_metadata` dict is `none`. -/
structure ProcChunk where
  pid : List Char
  document_id : List Char
  chunk_id : List Char
  chunk_index : ℚ
  content : List Char
  content_type : List Char
  chunk_metadata : PyVal
  extracted_metadata : Option ExtractedMetaRec
  embeddings : List (List Char × List ℚ)
  created_at : List Char

/-- `_generate_embeddings` (processor.py lines 508-536): empty dict when the
client is unavailable, the call failed (`none`), the vector is empty, or its
length is not 1536; otherwise `{'text': vector}`. -/
def generateEmbeddings (available : Bool) (gen : Option (List ℚ)) :
    List (List Char × List ℚ) :=
  if !available then []
  else
    match gen with
    | none => []
    | some v =>
      if v.isEmpty then []
      else if v.length != 1536 then []
      else [("text".data, v)]

/-- A row of the batch insert into `langextract_processed_embeddings`. -/
structure StoreRecord where
  rid : List Char
  user_id : List Char
  document_id : List Char
  chunk_id : List Char
  chunk_index : ℚ
  content : List Char
  content_type : List Char
  embedding : List ℚ
  all_embeddings : List (List Char × List ℚ)
  extracted_metadata : Option ExtractedMetaRec
  chunk_metadata : PyVal

/-- The chunk's `'text'` embedding as read at the storage boundary
(`chunk['embeddings'].get('text', [])`). -/
def textEmbOf (c : ProcChunk) : List ℚ :=
  (assocLookup ("text".data) c.embeddings).getD []

/-- The skip condition of `_store_processed_chunks`:
`not text_embedding or len(...) == 0 or len(...) != 1536`. -/
def invalidTextEmb (c : ProcChunk) : Bool :=
  (textEmbOf c).isEmpty || (textEmbOf c).length == 0 || (textEmbOf c).length != 1536

def mkStoreRecord (uid : List Char) (c : ProcChunk) : StoreRecord :=
  { rid := c.pid, user_id := uid, document_id := c.document_id,
    chunk_id := c.chunk_id, chunk_index := c.chunk_index,
    content := c.content, content_type := c.content_type,
    embedding := textEmbOf c, all_embeddings := c.embeddings,
    extracted_metadata := c.extracted_metadata,
    chunk_metadata := c.chunk_metadata }

/-- The record-building loop of `_store_processed_chunks` (processor.py
lines 547-571): chunks with a missing or wrongly-sized `'text'` embedding are
skipped with a warning, every other chunk becomes one insert row. -/
def buildChunkRecords (uid : List Char) : List ProcChunk → List StoreRecord
  | [] => []
  | c :: cs =>
    if invalidTextEmb c then buildChunkRecords uid cs
    else mkStoreRecord uid c :: buildChunkRecords uid cs

/-! ## `_aggregate_document_metadata` (processor.py lines 393-493) -/

/-- The aggregated `DocumentMetadata` dict. -/
structure DocMeta where
  total_chunks : Nat
  primary_type : Option (List Char)
  confidence_scores : Option (List (List Char × Nat))
  key_entities : List EntityRec
  total_text_length : Nat
  average_chunk_length : ℚ
  document_sections : List PyVal
  action_items : List PyVal
  successful_extractions : Nat
  failed_extractions : Nat
  schemas_applied : List (List Char)

/-- Truthiness of `extracted_metadata and not extracted_metadata.get('error')`. -/
def okMeta (c : ProcChunk) : Bool :=
  match c.extracted_metadata with
  | none => false
  | some m => !m.errored

/-- The `likely_types` chain of `.get` calls with `{}` defaults (no error
check — the second pass of the source reads it for every chunk). -/
def likelyTypesOf (c : ProcChunk) : List (List Char) :=
  match c.extracted_metadata with
  | none => []
  | some m =>
    match m.text_analysis with
    | none => []
    | some ta =>
      match ta.document_type_indicators with
      | none => []
      | some ti => ti.likely_types

def insightsOf (c : ProcChunk) : Option InsightsRec :=
  match c.extracted_metadata with
  | none => none
  | some m => m.content_insights

/-- `entity.get('text', '').lower().strip()`. -/
def entityKey (e : EntityRec) : List Char := pyStrip (toLowerL e.text)

/-- `_deduplicate_entities` (processor.py lines 495-506): keep the first
entity for each non-empty lowercased-stripped text. -/
def dedupEntitiesGo (seen : List (List Char)) : List EntityRec → List EntityRec
  | [] => []
  | e :: es =>
    if !(entityKey e).isEmpty && !(seen.contains (entityKey e)) then
      e :: dedupEntitiesGo (entityKey e :: seen) es
    else dedupEntitiesGo seen es

def dedupEntities (es : List EntityRec) : List EntityRec := dedupEntitiesGo [] es

/-- `d[k] = d.get(k, 0) + 1` on the insertion-ordered counts dict. -/
def countInsert (k : List Char) :
    List (List Char × Nat) → List (List Char × Nat)
  | [] => [(k, 1)]
  | p :: ps => if p.1 = k then (p.1, p.2 + 1) :: ps else p :: countInsert k ps

/-- `max(items, key=lambda x: x[1])`: Python `max` keeps the first item
attaining the maximum. -/
def pickMaxFirst : List (List Char × Nat) → Option (List Char × Nat)
  | [] => none
  | p :: ps =>
    match pickMaxFirst ps with
    | none => some p
    | some q => if q.2 > p.2 then some q else some p

/-- The `type_counts` dict of the primary-type pass, iterating all chunks
and all their likely types in order. -/
def typeCounts (chunks : List ProcChunk) : List (List Char × Nat) :=
  chunks.foldl (fun acc c => (likelyTypesOf c).foldl (fun a t => countInsert t a) acc) []

/-- The order in which document types are added to the
`schemas_applied` set (only chunks whose extraction did not error). -/
def schemasAppliedSeq (chunks : List ProcChunk) : List (List Char) :=
  chunks.foldl (fun acc c => if okMeta c then acc ++ likelyTypesOf c else acc) []

/-- `_aggregate_document_metadata`.  The one step whose result is not a pure
function of the chunk list alone is `list(set(...))` for `schemas_applied`:
a CPython set of strings iterates in an order fixed by the process's hash
seed.  That per-process listing behaviour is the explicit parameter
`setOrder` (for a fixed interpreter process it is one fixed function), so the
translation makes every dependency of the result visible.  Nothing else in
the source function reads any state outside its argument: no clock, no
randomness, no `self` attribute mutation, and the guarded division cannot
raise, so the `except` fallback path is dead for the translated body. -/
def aggregateDocumentMetadata
    (setOrder : List (List Char) → List (List Char))
    (chunks : List ProcChunk) : DocMeta :=
  let totalLen := chunks.foldl (fun n c => n + c.content.length) 0
  let successes := (chunks.filter okMeta).length
  let ents := (chunks.filter okMeta).foldl
    (fun acc c =>
      match insightsOf c with
      | none => acc
      | some ci => acc ++ ci.important_entities) []
  let sects := (chunks.filter okMeta).foldl
    (fun acc c =>
      match insightsOf c with
      | none => acc
      | some ci => acc ++ ci.document_sections) []
  let acts := (chunks.filter okMeta).foldl
    (fun acc c =>
      match insightsOf c with
      | none => acc
      | some ci => acc ++ ci.action_items) []
  let applied := setOrder (schemasAppliedSeq chunks)
  let tc := typeCounts chunks
  let primary :=
    if applied.isEmpty then none
    else
      match pickMaxFirst tc with
      | none => none
      | some p => some p.1
  { total_chunks := chunks.length
    primary_type := primary
    confidence_scores :=
      if applied.isEmpty then none
      else if tc.isEmpty then none else some tc
    key_entities := (dedupEntities ents).take 20
    total_text_length := totalLen
    average_chunk_length :=
      if chunks.isEmpty then 0 else (totalLen : ℚ) / (chunks.length : ℚ)
    document_sections := sects.take 10
    action_items := acts.take 10
    successful_extractions := successes
    failed_extractions := chunks.length - successes
    schemas_applied := applied }

/-! ## Lemmas about normalization and stripping -/

theorem dropWhile_head_false {p : Char → Bool} :
    ∀ {l : List Char} {a : Char} {as : List Char},
      l.dropWhile p = a :: as → p a = false
  | [], _, _, h => by simp [List.dropWhile] at h
  | c :: cs, a, as, h => by
    by_cases hc : p c
    · rw [List.dropWhile_cons_of_pos hc] at h
      exact dropWhile_head_false h
    · rw [List.dropWhile_cons_of_neg hc] at h
      have hca : c = a := (List.cons.injEq _ _ _ _ ▸ h).1
      rw [← hca]
      exact Bool.of_not_eq_true hc

theorem dropWhile_eq_self_cons {p : Char → Bool} {a : Char} {as : List Char}
    (h : (a :: as).dropWhile p = a :: as) : p a = false := by
  by_cases hc : p a
  · rw [List.dropWhile_cons_of_pos hc] at h
    have hlen : (as.dropWhile p).length ≤ as.length :=
      (List.dropWhile_suffix p).sublist.length_le
    rw [h] at hlen
    simp at hlen
  · exact Bool.of_not_eq_true hc

theorem dropWhile_append_singleton {p : Char → Bool} {a : Char}
    (ha : p a = false) :
    ∀ xs : List Char, (xs ++ [a]).dropWhile p = xs.dropWhile p ++ [a]
  | [] => by simp [List.dropWhile, ha]
  | c :: cs => by
    by_cases hc : p c
    · simpa [List.dropWhile_cons_of_pos hc] using dropWhile_append_singleton ha cs
    · simp [List.dropWhile_cons_of_neg hc]

/-- The left end of `pyStrip l` carries no leading whitespace. -/
theorem pyStrip_left_fixed (l : List Char) :
    (pyStrip l).dropWhile isPySpace = pyStrip l := by
  unfold pyStrip
  rcases hA : l.dropWhile isPySpace with _ | ⟨a, as⟩
  · simp [List.rdropWhile_nil]
  · have ha : isPySpace a = false := dropWhile_head_false hA
    unfold List.rdropWhile
    rw [List.reverse_cons, dropWhile_append_singleton ha, List.reverse_append]
    simp [List.dropWhile_cons_of_neg, ha]

theorem pyStrip_right_fixed (l : List Char) :
    (pyStrip l).rdropWhile isPySpace = pyStrip l := by
  unfold pyStrip
  exact List.rdropWhile_idempotent isPySpace _

theorem pyStrip_idempotent (l : List Char) : pyStrip (pyStrip l) = pyStrip l := by
  conv_lhs => rw [pyStrip, pyStrip_left_fixed l]
  exact pyStrip_right_fixed l

theorem pyStrip_append_blank {c : List Char} (hc : pyStrip c = c) (hne : c ≠ []) :
    pyStrip (c ++ ['\n', '\n']) = c := by
  have hL : c.dropWhile isPySpace = c := by
    conv_lhs => rw [← hc]
    rw [pyStrip_left_fixed, hc]
  have hR : c.rdropWhile isPySpace = c := by
    conv_lhs => rw [← hc]
    rw [pyStrip_right_fixed, hc]
  rcases c with _ | ⟨a, as⟩
  · exact absurd rfl hne
  · have ha : isPySpace a = false := dropWhile_eq_self_cons hL
    unfold pyStrip
    have h1 : ((a :: as) ++ ['\n', '\n']).dropWhile isPySpace =
        (a :: as) ++ ['\n', '\n'] := by
      rw [List.cons_append, List.dropWhile_cons_of_neg (by simp [ha])]
    rw [h1]
    have h2 : (a :: as) ++ ['\n', '\n'] = ((a :: as) ++ ['\n']) ++ ['\n'] := by
      simp
    rw [h2, List.rdropWhile_concat_pos _ _ _ (by decide),
        List.rdropWhile_concat_pos _ _ _ (by decide), hR]

theorem pyStrip_subset {c : Char} {l : List Char} (h : c ∈ pyStrip l) : c ∈ l := by
  unfold pyStrip List.rdropWhile at h
  rw [List.mem_reverse] at h
  have h2 := (List.dropWhile_suffix isPySpace).sublist.subset h
  rw [List.mem_reverse] at h2
  exact (List.dropWhile_suffix isPySpace).sublist.subset h2

theorem pyStrip_nil_all_space {l : List Char} (h : pyStrip l = []) :
    ∀ c ∈ l, isPySpace c = true := by
  intro c hc
  unfold pyStrip List.rdropWhile at h
  rw [List.reverse_eq_nil_iff, List.dropWhile_eq_nil_iff] at h
  have hsplit2 : List.takeWhile isPySpace l ++ List.dropWhile isPySpace l = l :=
    List.takeWhile_append_dropWhile isPySpace l
  rw [← hsplit2] at hc
  rcases List.mem_append.1 hc with h1 | h1
  · exact List.mem_takeWhile_imp h1
  · exact h _ (List.mem_reverse.2 h1)

/-! ## Lemmas: the cleaned text contains no newline and is stripped -/

theorem collapseWSGo_mem : ∀ {b : Bool} {l : List Char} {c : Char},
    c ∈ collapseWSGo b l → c = ' ' ∨ (c ∈ l ∧ isPySpace c = false)
  | _, [], _, h => by simp [collapseWSGo] at h
  | b, d :: ds, c, h => by
    by_cases hd : isPySpace d
    · rcases b with _ | _
      · rw [collapseWSGo, if_pos hd] at h
        simp only [Bool.false_eq_true, if_false, List.mem_cons] at h
        rcases h with h | h
        · exact Or.inl h
        · rcases collapseWSGo_mem h with h1 | h1
          · exact Or.inl h1
          · exact Or.inr ⟨List.mem_cons_of_mem _ h1.1, h1.2⟩
      · rw [collapseWSGo, if_pos hd, if_pos rfl] at h
        rcases collapseWSGo_mem h with h1 | h1
        · exact Or.inl h1
        · exact Or.inr ⟨List.mem_cons_of_mem _ h1.1, h1.2⟩
    · rw [collapseWSGo, if_neg hd] at h
      rcases List.mem_cons.1 h with h1 | h1
      · exact Or.inr ⟨h1 ▸ List.mem_cons_self _ _,
          h1 ▸ Bool.of_not_eq_true hd⟩
      · rcases collapseWSGo_mem h1 with h2 | h2
        · exact Or.inl h2
        · exact Or.inr ⟨List.mem_cons_of_mem _ h2.1, h2.2⟩

theorem collapseWS_no_nl (l : List Char) : '\n' ∉ collapseWS l := by
  intro h
  rcases collapseWSGo_mem h with h1 | h1
  · simp at h1
  · simp [isPySpace] at h1

theorem collapseWS_no_cr (l : List Char) : '\r' ∉ collapseWS l := by
  intro h
  rcases collapseWSGo_mem h with h1 | h1
  · simp at h1
  · simp [isPySpace] at h1

theorem normalizeCR_id : ∀ l : List Char, (∀ c ∈ l, c ≠ '\r') → normalizeCR l = l
  | [], _ => rfl
  | [c], h => by
    have : c ≠ '\r' := h c (List.mem_singleton_self c)
    simp [normalizeCR, this]
  | c :: d :: rest, h => by
    have hc : c ≠ '\r' := h c (List.mem_cons_self _ _)
    have hrec := normalizeCR_id (d :: rest) fun x hx => h x (List.mem_cons_of_mem _ hx)
    simp [normalizeCR, hc, hrec]

theorem cleanText_no_nl (l : List Char) : '\n' ∉ cleanText l := by
  intro h
  unfold cleanText at h
  have hnocr : ∀ c ∈ removeCtrl (collapseWS l), c ≠ '\r' := by
    intro c hc he
    exact collapseWS_no_cr l (he ▸ (List.mem_filter.1 hc).1)
  rw [normalizeCR_id _ hnocr] at h
  have h2 := pyStrip_subset h
  exact collapseWS_no_nl l (List.mem_filter.1 h2).1

theorem cleanText_stripped (l : List Char) : pyStrip (cleanText l) = cleanText l := by
  unfold cleanText
  exact pyStrip_idempotent _

theorem collapseWSGo_true_all_sp :
    ∀ {l : List Char}, (∀ c ∈ l, isPySpace c = true) → collapseWSGo true l = []
  | [], _ => rfl
  | c :: cs, h => by
    have hc : isPySpace c = true := h c (List.mem_cons_self _ _)
    rw [collapseWSGo, if_pos hc, if_pos rfl]
    exact collapseWSGo_true_all_sp fun x hx => h x (List.mem_cons_of_mem _ hx)

theorem cleanText_of_ws_only {l : List Char} (h : pyStrip l = []) :
    cleanText l = [] := by
  have hall := pyStrip_nil_all_space h
  rcases l with _ | ⟨c, cs⟩
  · rfl
  · have hc : isPySpace c = true := hall c (List.mem_cons_self _ _)
    have h1 : collapseWS (c :: cs) = [' '] := by
      rw [collapseWS, collapseWSGo, if_pos hc]
      simp only [Bool.false_eq_true, if_false]
      rw [collapseWSGo_true_all_sp fun x hx => hall x (List.mem_cons_of_mem _ hx)]
    unfold cleanText
    rw [h1]
    decide


/-! ## Lemmas: paragraph splitting on newline-free text -/

theorem splitBlankFuel_no_nl :
    ∀ (fuel : Nat) (acc l : List Char), '\n' ∉ l →
      splitBlankFuel fuel acc l = [acc.reverse ++ l]
  | _, acc, [], _ => by simp [splitBlankFuel]
  | 0, acc, _ :: _, _ => by simp [splitBlankFuel]
  | fuel + 1, acc, c :: cs, h => by
    have hc : ¬(c == '\n') = true := by
      simp only [beq_iff_eq]
      intro he
      exact h (he ▸ List.mem_cons_self _ _)
    rw [splitBlankFuel, if_neg hc]
    rw [splitBlankFuel_no_nl fuel (c :: acc) cs fun hx => h (List.mem_cons_of_mem _ hx)]
    simp

theorem splitIntoParagraphs_nil : splitIntoParagraphs [] = [] := by decide

theorem splitIntoParagraphs_single {s : List Char} (hnl : '\n' ∉ s)
    (hstr : pyStrip s = s) (hne : s ≠ []) : splitIntoParagraphs s = [s] := by
  unfold splitIntoParagraphs splitBlankGo
  rw [splitBlankFuel_no_nl s.length [] s hnl]
  simp only [List.reverse_nil, List.nil_append, List.map_cons, List.map_nil, hstr]
  rw [List.filter_cons]
  simp [List.isEmpty_iff, hne]

/-! ## Lemmas: the chunk pipeline on inputs that do not require a split -/

theorem chunkText_of_clean_nil (cfg : ChunkCfg) (docId ctype t : List Char)
    (h : cleanText t = []) : chunkText cfg docId ctype t = [] := by
  unfold chunkText
  split
  · rfl
  · rw [h, splitIntoParagraphs_nil]
    rw [chunkTextLoop]
    norm_num [optimizeChunkSizes, reindexFrom]

theorem chunkTextLoop_single (cfg : ChunkCfg) (docId ctype c : List Char)
    (hstr : pyStrip c = c) (hne : c ≠ []) (hle : c.length ≤ cfg.maxChunkSize) :
    chunkTextLoop cfg docId ctype [c] [] 0 = [mkTextChunk docId ctype c 0] := by
  rw [chunkTextLoop]
  split
  · next hcond =>
    exfalso
    rcases hcond with ⟨h1, -⟩
    simp only [List.length_nil, Nat.zero_add] at h1
    omega
  · rw [chunkTextLoop]
    have happ : ([] : List Char) ++ c ++ "\n\n".data = c ++ ['\n', '\n'] := by
      simp
    rw [happ, pyStrip_append_blank hstr hne]
    rw [if_neg (by rw [List.isEmpty_iff]; exact hne)]

theorem chunkText_single_chunk (cfg : ChunkCfg) (docId ctype t : List Char)
    (hne : cleanText t ≠ []) (hle : (cleanText t).length ≤ cfg.maxChunkSize) :
    chunkText cfg docId ctype t = [mkTextChunk docId ctype (cleanText t) 0] := by
  unfold chunkText
  split
  · next hg =>
    exfalso
    rcases Bool.or_eq_true_iff.1 hg with h1 | h1
    · rw [List.isEmpty_iff] at h1
      exact hne (by rw [h1] at hne ⊢; exact cleanText_of_ws_only (by decide))
    · rw [List.isEmpty_iff] at h1
      exact hne (cleanText_of_ws_only h1)
  · rw [splitIntoParagraphs_single (cleanText_no_nl t) (cleanText_stripped t) hne]
    rw [chunkTextLoop_single cfg docId ctype _ (cleanText_stripped t) hne hle]
    unfold optimizeChunkSizes
    rw [List.foldl_cons, List.foldl_nil]
    have hstep : optStep cfg docId [] (mkTextChunk docId ctype (cleanText t) 0) =
        [mkTextChunk docId ctype (cleanText t) 0] := by
      unfold optStep
      rw [if_neg (by simp only [mkTextChunk]; omega)]
      rw [if_neg (by simp)]
      rfl
    rw [hstep]
    rfl

/-! ## Lemmas: the size-optimization pass -/

/-- The rational values `n, n+1, ..., n+m-1`. -/
def natSeq : Nat → Nat → List ℚ
  | _, 0 => []
  | n, m + 1 => ((n : Nat) : ℚ) :: natSeq (n + 1) m

theorem reindexFrom_map_idx :
    ∀ (n : Nat) (l : List Chunk),
      (reindexFrom n l).map Chunk.chunk_index = natSeq n l.length
  | _, [] => rfl
  | n, c :: cs => by
    rw [reindexFrom, List.map_cons, List.length_cons, natSeq,
        reindexFrom_map_idx (n + 1) cs]

theorem reindexFrom_map_content :
    ∀ (n : Nat) (l : List Chunk),
      (reindexFrom n l).map Chunk.content = l.map Chunk.content
  | _, [] => rfl
  | n, c :: cs => by
    rw [reindexFrom, List.map_cons, List.map_cons, reindexFrom_map_content (n + 1) cs]

theorem reindexFrom_length :
    ∀ (n : Nat) (l : List Chunk), (reindexFrom n l).length = l.length
  | _, [] => rfl
  | n, c :: cs => by
    rw [reindexFrom, List.length_cons, List.length_cons, reindexFrom_length (n + 1) cs]

/-- Bounds check `min_chunk_size ≤ len(content) ≤ max_chunk_size`. -/
def withinBoundsB (cfg : ChunkCfg) (c : Chunk) : Bool :=
  decide (cfg.minChunkSize ≤ c.content.length) &&
  decide (c.content.length ≤ cfg.maxChunkSize)

theorem optStep_of_within (cfg : ChunkCfg) (docId : List Char)
    (acc : List Chunk) (c : Chunk) (hc : withinBoundsB cfg c = true) :
    optStep cfg docId acc c = acc ++ [c] := by
  rw [withinBoundsB, Bool.and_eq_true, decide_eq_true_eq, decide_eq_true_eq] at hc
  unfold optStep
  rw [if_neg (by omega)]
  rw [if_neg (by rintro ⟨h1, -⟩; omega)]

theorem foldl_optStep_within (cfg : ChunkCfg) (docId : List Char) :
    ∀ (rest acc : List Chunk),
      (∀ x ∈ acc, withinBoundsB cfg x = true) →
      (∀ x ∈ rest, withinBoundsB cfg x = true) →
      ∀ x ∈ rest.foldl (optStep cfg docId) acc, withinBoundsB cfg x = true
  | [], acc, hacc, _, x, hx => hacc x hx
  | c :: cs, acc, hacc, hrest, x, hx => by
    rw [List.foldl_cons,
        optStep_of_within cfg docId acc c (hrest c (List.mem_cons_self _ _))] at hx
    refine foldl_optStep_within cfg docId cs (acc ++ [c]) ?_ ?_ x hx
    · intro y hy
      rcases List.mem_append.1 hy with h1 | h1
      · exact hacc y h1
      · rw [List.mem_singleton.1 h1]
        exact hrest c (List.mem_cons_self _ _)
    · intro y hy
      exact hrest y (List.mem_cons_of_mem _ hy)

/-! ## Lemmas: the overlap seed is a suffix of the previous buffer -/

theorem overlapTrimSentence_suffix (cfg : ChunkCfg) (ot : List Char) :
    overlapTrimSentence cfg ot <:+ ot := by
  unfold overlapTrimSentence
  rcases lastIdxOf '.' ot with _ | k
  · exact List.suffix_refl ot
  · dsimp only
    split
    · exact List.drop_suffix (k + 1) ot
    · exact List.suffix_refl ot

theorem overlapTrimWord_suffix (ot : List Char) : overlapTrimWord ot <:+ ot := by
  unfold overlapTrimWord
  rcases lastIdxOf ' ' ot with _ | k
  · exact List.suffix_refl ot
  · dsimp only
    split
    · exact List.drop_suffix (k + 1) ot
    · exact List.suffix_refl ot

/-! ## Lemmas: dictionary model -/

theorem assocLookup_dictInsert_ne {α : Type} (k k' : List Char) (v : α)
    (h : k' ≠ k) :
    ∀ l : List (List Char × α), assocLookup k (dictInsert k' v l) = assocLookup k l
  | [] => by
    unfold dictInsert assocLookup
    rw [if_neg h]
    rfl
  | p :: ps => by
    unfold dictInsert
    by_cases hp : p.1 = k'
    · rw [if_pos hp]
      unfold assocLookup
      rw [if_neg h, if_neg (hp ▸ h)]
    · rw [if_neg hp]
      unfold assocLookup
      by_cases hk : p.1 = k
      · rw [if_pos hk, if_pos hk]
      · rw [if_neg hk, if_neg hk]
        exact assocLookup_dictInsert_ne k k' v h ps

/-! ## Lemmas: the required-field retention loop of `_apply_schema` -/

theorem retained_lookup_none (extractF : FieldExtractor) (text : List Char)
    (schema : SchemaDef) (threshold : ℚ) (f : List Char) :
    ∀ (fl : List (List Char × FieldDef)) (acc : List (List Char × ExtVal)),
      assocLookup f acc = none →
      (∀ fd, (f, fd) ∈ fl → ∀ fv, extractF text f fd schema = some fv →
        fv.confidence < threshold) →
      assocLookup f (fl.foldl (retainStep extractF text schema threshold) acc) = none
  | [], acc, hacc, _ => by rwa [List.foldl_nil]
  | (n, fd) :: fl, acc, hacc, hbad => by
    rw [List.foldl_cons]
    have hrest : ∀ fd', (f, fd') ∈ fl → ∀ fv, extractF text f fd' schema = some fv →
        fv.confidence < threshold :=
      fun fd' h' => hbad fd' (List.mem_cons_of_mem _ h')
    by_cases hnf : n = f
    · subst hnf
      have hstep : retainStep extractF text schema threshold acc (n, fd) = acc := by
        unfold retainStep
        rcases hfv : extractF text n fd schema with _ | fv
        · rfl
        · dsimp only
          rw [if_neg (by
            have := hbad fd (List.mem_cons_self _ _) fv hfv
            intro hth
            exact absurd this (by simpa using hth))]
      rw [hstep]
      exact retained_lookup_none extractF text schema threshold n fl acc hacc hrest
    · have hstep : assocLookup f (retainStep extractF text schema threshold acc (n, fd)) =
          assocLookup f acc := by
        unfold retainStep
        rcases extractF text n fd schema with _ | fv
        · rfl
        · dsimp only
          split
          · exact assocLookup_dictInsert_ne f n fv.value hnf acc
          · rfl
      exact retained_lookup_none extractF text schema threshold f fl _
        (hstep.trans hacc) hrest

theorem applySchema_required_missing (extractF : FieldExtractor)
    (text : List Char) (schema : SchemaDef) (opts : ExtractOptions)
    (fl : List (List Char × FieldDef)) (f : List Char)
    (hfl : schema.fields = some fl) (hf : f ∈ schema.required)
    (hbad : ∀ fd, (f, fd) ∈ fl → ∀ fv, extractF text f fd schema = some fv →
      fv.confidence < opts.confidence_threshold.getD (7 / 10)) :
    applySchema extractF text schema opts = none := by
  unfold applySchema
  rw [hfl]
  dsimp only
  rw [if_neg (by
    rw [List.isEmpty_iff]
    intro h0
    rw [h0] at hf
    exact List.not_mem_nil f hf)]
  rw [if_neg (by
    intro hall
    rw [List.all_eq_true] at hall
    have h1 := hall f hf
    rw [retained_lookup_none extractF text schema _ f fl [] rfl hbad] at h1
    simp at h1)]

/-! ## Lemmas: the per-schema loop of `extract_from_chunk` -/

theorem schemaLoop_lookup_none (extractF : FieldExtractor)
    (registry : List (List Char × SchemaDef)) (text : List Char)
    (opts : ExtractOptions) (sname : List Char)
    (hs : ∀ schema, assocLookup sname registry = some schema →
      applySchema extractF text schema opts = none ∨
      applySchema extractF text schema opts = some []) :
    ∀ (names : List (List Char)) (acc : List (List Char × List (List Char × ExtVal))),
      assocLookup sname acc = none →
      assocLookup sname (names.foldl (schemaLoopStep extractF registry text opts) acc) = none
  | [], acc, hacc => by rwa [List.foldl_nil]
  | n :: names, acc, hacc => by
    rw [List.foldl_cons]
    refine schemaLoop_lookup_none extractF registry text opts sname hs names _ ?_
    unfold schemaLoopStep
    rcases hl : assocLookup n registry with _ | schema
    · exact hacc
    · dsimp only
      rcases ha : applySchema extractF text schema opts with _ | d
      · exact hacc
      · dsimp only
        by_cases hn : n = sname
        · subst hn
          rcases hs schema hl with h1 | h1
          · rw [h1] at ha
            exact Option.noConfusion ha
          · rw [h1] at ha
            have hd : ([] : List (List Char × ExtVal)) = d := Option.some.inj ha
            rw [← hd]
            simp only [List.isEmpty_nil, if_true]
            exact hacc
        · split
          · exact hacc
          · rw [assocLookup_dictInsert_ne sname n d hn acc]
            exact hacc

theorem schemaLoop_filter_known (extractF : FieldExtractor)
    (registry : List (List Char × SchemaDef)) (text : List Char)
    (opts : ExtractOptions) :
    ∀ (names : List (List Char)) (acc : List (List Char × List (List Char × ExtVal))),
      names.foldl (schemaLoopStep extractF registry text opts) acc =
      (names.filter fun n => (assocLookup n registry).isSome).foldl
        (schemaLoopStep extractF registry text opts) acc
  | [], _ => rfl
  | n :: names, acc => by
    rw [List.foldl_cons, List.filter_cons]
    rcases hl : assocLookup n registry with _ | schema
    · simp only [hl, Option.isSome_none, Bool.false_eq_true, if_false]
      have hskip : schemaLoopStep extractF registry text opts acc n = acc := by
        unfold schemaLoopStep
        rw [hl]
      rw [hskip]
      exact schemaLoop_filter_known extractF registry text opts names acc
    · simp only [hl, Option.isSome_some, if_true]
      rw [List.foldl_cons]
      exact schemaLoop_filter_known extractF registry text opts names _

/-! ## Lemmas: the schema loader -/

/-- The last schema associated with a name in the parsed file list. -/
def lastEntry (n : List Char) : List (List Char × SchemaDef) → Option SchemaDef
  | [] => none
  | p :: ps =>
    match lastEntry n ps with
    | some s => some s
    | none => if p.1 = n then some p.2 else none

theorem loadCoreSchemas_vocab :
    ∀ (files : List (List Char × SchemaDef)) (st : LoaderState),
      (loadCoreSchemas files st).vocabularies = st.vocabularies
  | [], _ => rfl
  | p :: ps, st => by
    rw [loadCoreSchemas, List.foldl_cons]
    exact loadCoreSchemas_vocab ps _

theorem getSchemaL_dictInsert_ne (st : LoaderState) (n k : List Char)
    (s : SchemaDef) (h : k ≠ n) :
    getSchemaL { st with schemas := dictInsert k s st.schemas } n =
      getSchemaL st n := by
  unfold getSchemaL
  exact assocLookup_dictInsert_ne n k s h st.schemas

theorem assocLookup_dictInsert_self {α : Type} (k : List Char) (v : α) :
    ∀ l : List (List Char × α), assocLookup k (dictInsert k v l) = some v
  | [] => by
    unfold dictInsert assocLookup
    rw [if_pos rfl]
  | p :: ps => by
    unfold dictInsert
    by_cases hp : p.1 = k
    · rw [if_pos hp]
      unfold assocLookup
      rw [if_pos rfl]
    · rw [if_neg hp]
      unfold assocLookup
      rw [if_neg hp]
      exact assocLookup_dictInsert_self k v ps

theorem loadCoreSchemas_lookup :
    ∀ (files : List (List Char × SchemaDef)) (st : LoaderState) (n : List Char),
      getSchemaL (loadCoreSchemas files st) n =
        (match lastEntry n files with
         | some s => some s
         | none => getSchemaL st n)
  | [], _, _ => rfl
  | p :: ps, st, n => by
    rw [loadCoreSchemas, List.foldl_cons, lastEntry]
    have hrec := loadCoreSchemas_lookup ps
      { st with schemas := dictInsert p.1 p.2 st.schemas } n
    rw [loadCoreSchemas] at hrec
    rw [hrec]
    rcases lastEntry n ps with _ | s
    · dsimp only
      by_cases hp : p.1 = n
      · rw [if_pos hp]
        unfold getSchemaL
        rw [← hp]
        exact assocLookup_dictInsert_self p.1 p.2 st.schemas
      · rw [if_neg hp]
        exact getSchemaL_dictInsert_ne st n p.1 p.2 hp
    · rfl

theorem lastEntry_of_uniform :
    ∀ (files : List (List Char × SchemaDef)) (n : List Char) (s : SchemaDef),
      (n, s) ∈ files → (∀ p ∈ files, p.1 = n → p.2 = s) →
      lastEntry n files = some s
  | [], _, _, hm, _ => absurd hm (List.not_mem_nil _)
  | p :: ps, n, s, hm, hu => by
    rw [lastEntry]
    rcases hl : lastEntry n ps with _ | s'
    · dsimp only
      rcases List.mem_cons.1 hm with h1 | h1
      · rw [if_pos (by rw [← h1])]
        rw [← h1]
      · exfalso
        rw [lastEntry_of_uniform ps n s h1
          (fun q hq => hu q (List.mem_cons_of_mem _ hq))] at hl
        exact Option.noConfusion hl
    · have hmem : ∀ ps' : List (List Char × SchemaDef),
          lastEntry n ps' = some s' → ∃ q ∈ ps', q.1 = n ∧ q.2 = s' := by
        intro ps'
        induction ps' with
        | nil => intro h; exact Option.noConfusion h
        | cons q qs ih =>
          intro h
          rw [lastEntry] at h
          rcases hq : lastEntry n qs with _ | s''
          · rw [hq] at h
            dsimp only at h
            by_cases hqn : q.1 = n
            · rw [if_pos hqn] at h
              exact ⟨q, List.mem_cons_self _ _, hqn, Option.some.inj h⟩
            · rw [if_neg hqn] at h
              exact Option.noConfusion h
          · rw [hq] at h
            dsimp only at h
            have hss : s'' = s' := Option.some.inj h
            rcases ih (hss ▸ hq) with ⟨q', hq', h1, h2⟩
            exact ⟨q', List.mem_cons_of_mem _ hq', h1, h2⟩
      rcases hmem ps hl with ⟨q, hq, h1, h2⟩
      have := hu q (List.mem_cons_of_mem _ hq) h1
      rw [this] at h2
      rw [h2]

theorem validateFields_invalid (st : LoaderState) (fname : List Char)
    (fd : FieldDef) (r vnam enam : List Char)
    (hr : fd.enum_ref = some r) (hsplit : splitDot r = [vnam, enam])
    (hres : refResolves st vnam enam = false) :
    ∀ fl : List (List Char × FieldDef), (fname, fd) ∈ fl →
      (∀ p ∈ fl, refWellFormed p.2 = true) →
      validateFields st fl = .ok false
  | [], hm, _ => absurd hm (List.not_mem_nil _)
  | (n0, fd0) :: fl, hm, hwf => by
    have htail : (fname, fd) ∈ fl → validateFields st fl = .ok false :=
      fun hm' => validateFields_invalid st fname fd r vnam enam hr hsplit hres fl
        hm' fun p hp => hwf p (List.mem_cons_of_mem _ hp)
    rw [validateFields]
    rcases h0 : fd0.enum_ref with _ | r0
    · have hm' : (fname, fd) ∈ fl := by
        rcases List.mem_cons.1 hm with h1 | h1
        · exfalso
          have hfd : fd = fd0 := congrArg Prod.snd h1
          rw [hfd, h0] at hr
          exact Option.noConfusion hr
        · exact h1
      exact htail hm'
    · have hwf0 := hwf (n0, fd0) (List.mem_cons_self _ _)
      rw [refWellFormed, h0] at hwf0
      dsimp only at hwf0 ⊢
      rcases hsp : splitDot r0 with _ | ⟨v0, _ | ⟨e0, _ | ⟨x, xs⟩⟩⟩
      · rw [hsp] at hwf0
        simp at hwf0
      · rw [hsp] at hwf0
        simp at hwf0
      · dsimp only
        by_cases hrv : refResolves st v0 e0 = true
        · rw [if_pos hrv]
          have hm' : (fname, fd) ∈ fl := by
            rcases List.mem_cons.1 hm with h1 | h1
            · exfalso
              have hfd : fd = fd0 := congrArg Prod.snd h1
              rw [hfd, h0] at hr
              have hr0 : r = r0 := (Option.some.inj hr).symm
              rw [hr0, hsp] at hsplit
              have hv : v0 = vnam := (List.cons.injEq _ _ _ _ ▸ hsplit).1
              have he : e0 = enam := by
                have h2 := (List.cons.injEq _ _ _ _ ▸ hsplit).2
                exact (List.cons.injEq _ _ _ _ ▸ h2).1
              rw [hv, he] at hrv
              rw [hres] at hrv
              exact Bool.noConfusion hrv
            · exact h1
          exact htail hm'
        · rw [if_neg hrv]
      · rw [hsp] at hwf0
        simp at hwf0

/-! ## Lemmas: storage-boundary records -/

theorem valid_emb_len {c : ProcChunk} (h : invalidTextEmb c = false) :
    (textEmbOf c).length = 1536 := by
  unfold invalidTextEmb at h
  simp only [Bool.or_eq_false_iff] at h
  have h2 := h.2
  simpa using h2

theorem buildChunkRecords_eq_filter_map (uid : List Char) :
    ∀ chunks : List ProcChunk,
      buildChunkRecords uid chunks =
        ((chunks.filter fun c => !invalidTextEmb c).map (mkStoreRecord uid))
  | [] => rfl
  | c :: cs => by
    rw [buildChunkRecords, List.filter_cons]
    by_cases hc : invalidTextEmb c = true
    · rw [if_pos hc]
      simp only [hc, Bool.not_true, Bool.false_eq_true, if_false]
      exact buildChunkRecords_eq_filter_map uid cs
    · rw [if_neg hc]
      have hc' : invalidTextEmb c = false := Bool.of_not_eq_true hc
      simp only [hc', Bool.not_false, if_true, List.map_cons]
      rw [buildChunkRecords_eq_filter_map uid cs]

theorem buildChunkRecords_emb_len (uid : List Char) :
    ∀ chunks : List ProcChunk,
      ((buildChunkRecords uid chunks).all fun r => r.embedding.length == 1536) = true
  | [] => rfl
  | c :: cs => by
    rw [buildChunkRecords]
    by_cases hc : invalidTextEmb c = true
    · rw [if_pos hc]
      exact buildChunkRecords_emb_len uid cs
    · rw [if_neg hc]
      rw [List.all_cons]
      have h1 : (textEmbOf c).length = 1536 := valid_emb_len (Bool.of_not_eq_true hc)
      simp only [mkStoreRecord, h1, beq_self_eq_true, Bool.true_and]
      exact buildChunkRecords_emb_len uid cs

/-! ## Claim-level properties -/

/-- Non-empty shared overlap between consecutive chunks: some non-empty
suffix of `a` is a prefix of `b`. -/
def sharesOverlapB (a b : List Char) : Bool :=
  (List.range (min a.length b.length)).any fun k =>
    a.drop (a.length - (k + 1)) == b.take (k + 1)

/-- Every adjacent pair of chunks shares a non-empty overlap. -/
def consecAllShareB : List Chunk → Bool
  | c :: d :: rest => sharesOverlapB c.content d.content && consecAllShareB (d :: rest)
  | _ => true

/-- No adjacent pair of chunks shares a non-empty overlap. -/
def consecNoneShareB : List Chunk → Bool
  | c :: d :: rest => !sharesOverlapB c.content d.content && consecNoneShareB (d :: rest)
  | _ => true

/-- The chunk indices are exactly `0, 1, ..., n-1`. -/
def idxContiguous (l : List Chunk) : Prop :=
  l.map Chunk.chunk_index = natSeq 0 l.length

/-- The chunk indices are strictly increasing along the list. -/
def idxStrictIncrB : List Chunk → Bool
  | c :: d :: rest =>
    decide (c.chunk_index < d.chunk_index) && idxStrictIncrB (d :: rest)
  | _ => true

/-! ## C1 — schema-level all-or-nothing required-field enforcement -/

/-- C1: for every loaded schema with a non-empty required list, every text
and every options object, if some required field is extracted below the
confidence threshold (for every definition it carries in the schema's field
table, including returning no dict at all), then `schema_matches` carries no
entry for that schema whatsoever — never a partial field set.  The statement
is universally quantified over the field-extraction function, so it covers
the source's concrete regex extractor. -/
theorem c1_required_all_or_nothing (extractF : FieldExtractor)
    (registry : List (List Char × SchemaDef)) (text : List Char)
    (names : List (List Char)) (opts : ExtractOptions)
    (sname : List Char) (schema : SchemaDef) (fl : List (List Char × FieldDef))
    (hreg : assocLookup sname registry = some schema)
    (hfl : schema.fields = some fl)
    (_hreq : schema.required ≠ [])
    (hbad : ∃ f ∈ schema.required, ∀ fd, (f, fd) ∈ fl →
      ∀ fv, extractF text f fd schema = some fv →
        fv.confidence < opts.confidence_threshold.getD (7 / 10)) :
    assocLookup sname (extractSchemaMatches extractF registry text names opts) = none := by
  rcases hbad with ⟨f, hf, hlow⟩
  have hnone : applySchema extractF text schema opts = none :=
    applySchema_required_missing extractF text schema opts fl f hfl hf hlow
  unfold extractSchemaMatches
  refine schemaLoop_lookup_none extractF registry text opts sname ?_ names [] rfl
  intro schema' h'
  rw [hreg] at h'
  rw [← Option.some.inj h']
  exact Or.inl hnone

def fdW : FieldDef := ⟨"string".data, none, none⟩

def schemaW : SchemaDef :=
  ⟨none, some [("amount".data, fdW)], ["amount".data], []⟩

def registryW : List (List Char × SchemaDef) := [("invoice".data, schemaW)]

/-- An extractor that always scores 0.5, below the 0.7 threshold. -/
def extractFW : FieldExtractor := fun _ _ _ _ => some ⟨ExtVal.vstr [], 1 / 2⟩

def optsW : ExtractOptions := ⟨some (7 / 10), false, false⟩

/-- Witness for C1: a schema requiring `amount`, whose extraction scores 0.5
against threshold 0.7, is entirely absent from `schema_matches`. -/
theorem c1_witness :
    assocLookup ("invoice".data)
      (extractSchemaMatches extractFW registryW ("t".data)
        [("invoice".data)] optsW) = none := by
  refine c1_required_all_or_nothing extractFW registryW ("t".data)
    [("invoice".data)] optsW ("invoice".data) schemaW [("amount".data, fdW)]
    rfl rfl (by decide) ?_
  refine ⟨"amount".data, List.mem_singleton.mpr rfl, ?_⟩
  intro fd hfd fv hfv
  have h2 : (⟨ExtVal.vstr [], 1 / 2⟩ : FieldOut) = fv := Option.some.inj hfv
  rw [← h2]
  norm_num [optsW]

/-! ## C8 — unknown schema names are skipped, never raised -/

/-- C8: requesting an unknown schema name never aborts the loop: the result
is identical to the one for the request list with unknown names filtered out
(every other requested schema is still applied), and no unknown name ever
appears in `schema_matches`.  The embedding is a total function, matching the
fact that the source loop contains no `raise` — an unknown name only logs a
warning. -/
theorem c8_unknown_schema_skipped (extractF : FieldExtractor)
    (registry : List (List Char × SchemaDef)) (text : List Char)
    (names : List (List Char)) (opts : ExtractOptions) :
    extractSchemaMatches extractF registry text names opts =
      extractSchemaMatches extractF registry text
        (names.filter fun n => (assocLookup n registry).isSome) opts ∧
    ∀ n : List Char, assocLookup n registry = none →
      assocLookup n (extractSchemaMatches extractF registry text names opts) = none := by
  constructor
  · exact schemaLoop_filter_known extractF registry text opts names []
  · intro n hn
    unfold extractSchemaMatches
    refine schemaLoop_lookup_none extractF registry text opts n ?_ names [] rfl
    intro schema h'
    rw [hn] at h'
    exact Option.noConfusion h'

/-- Witness for C8: requesting `missing` alongside a registered schema
leaves no `missing` entry in the result. -/
theorem c8_witness :
    assocLookup ("missing".data)
      (extractSchemaMatches extractFW registryW ("t".data)
        [("missing".data), ("invoice".data)] optsW) = none :=
  (c8_unknown_schema_skipped extractFW registryW ("t".data)
    [("missing".data), ("invoice".data)] optsW).2 ("missing".data) rfl

/-! ## C9 — unresolvable enum_ref: loaded, flagged invalid, zero matches -/

/-- C9: a schema carrying an `enum_ref` of the well-formed shape
`vocab.enum` that does not resolve (missing vocabulary, empty vocabulary
dict, or missing enum) is still loaded and retrievable through `get_schema`
(loading performs no validation), `validate_schema_references` reports it
invalid, and extracting the field yields the empty value at confidence 0.0
rather than an error.  `huni` states that every file parsed to this name
carries this schema (dict semantics: the last write wins); `hwf` states every
`enum_ref` in the schema splits into exactly two dot-parts, so the scan
reaches the offending field without raising `ValueError`. -/
theorem c9_unresolved_enum_ref (st : LoaderState)
    (files : List (List Char × SchemaDef)) (name : List Char)
    (schema : SchemaDef) (fl : List (List Char × FieldDef))
    (fname : List Char) (fd : FieldDef) (r vnam enam text : List Char)
    (hmem : (name, schema) ∈ files)
    (huni : ∀ p ∈ files, p.1 = name → p.2 = schema)
    (hfl : schema.fields = some fl)
    (hfd : (fname, fd) ∈ fl)
    (hr : fd.enum_ref = some r)
    (hsplit : splitDot r = [vnam, enam])
    (hwf : ∀ p ∈ fl, refWellFormed p.2 = true)
    (hres : refResolves (loadCoreSchemas files st) vnam enam = false) :
    getSchemaL (loadCoreSchemas files st) name = some schema ∧
    validateSchemaReferences (loadCoreSchemas files st) name = .ok false ∧
    extractEnumRefField (loadCoreSchemas files st) text fd = .ok ⟨.vstr [], 0⟩ := by
  have hlook : getSchemaL (loadCoreSchemas files st) name = some schema := by
    rw [loadCoreSchemas_lookup files st name,
        lastEntry_of_uniform files name schema hmem huni]
  refine ⟨hlook, ?_, ?_⟩
  · unfold validateSchemaReferences
    rw [hlook]
    dsimp only
    rw [hfl]
    dsimp only
    exact validateFields_invalid _ fname fd r vnam enam hr hsplit hres fl hfd hwf
  · unfold extractEnumRefField
    rw [hr]
    dsimp only
    rw [hsplit]
    dsimp only
    unfold refResolves at hres
    rcases hv : getVocabularyL (loadCoreSchemas files st) vnam with _ | voc
    · rfl
    · rw [hv] at hres
      dsimp only at hres
      dsimp only
      by_cases he : voc.isEmpty = true
      · rw [if_pos he]
      · rw [if_neg he]
        have he' : voc.isEmpty = false := Bool.of_not_eq_true he
        rw [he'] at hres
        simp only [Bool.not_false, Bool.true_and] at hres
        have h2 : assocLookup enam voc = none := by
          rcases hl2 : assocLookup enam voc with _ | v2
          · rfl
          · rw [hl2] at hres
            simp at hres
        rw [h2]

def vocabRefFd : FieldDef := ⟨"string".data, none, some ("codes.kind".data)⟩

def schemaC9 : SchemaDef := ⟨none, some [("status".data, vocabRefFd)], [], []⟩

def emptyLoader : LoaderState := ⟨[], []⟩

/-- Witness for C9: loading a single schema file whose only field references
the absent vocabulary `codes`. -/
theorem c9_witness :
    getSchemaL (loadCoreSchemas [("refund".data, schemaC9)] emptyLoader)
      ("refund".data) = some schemaC9 ∧
    validateSchemaReferences (loadCoreSchemas [("refund".data, schemaC9)] emptyLoader)
      ("refund".data) = .ok false ∧
    extractEnumRefField (loadCoreSchemas [("refund".data, schemaC9)] emptyLoader)
      ("text".data) vocabRefFd = .ok ⟨.vstr [], 0⟩ :=
  c9_unresolved_enum_ref emptyLoader [("refund".data, schemaC9)] ("refund".data)
    schemaC9 [("status".data, vocabRefFd)] ("status".data) vocabRefFd
    ("codes.kind".data) ("codes".data) ("kind".data) ("text".data)
    (by decide) (by decide) rfl (by decide) rfl (by decide) (by decide) (by decide)

/-! ## C6 — storage-boundary embedding integrity -/

/-- C6: every record in the batch handed to the storage boundary carries an
embedding of length exactly 1536; the batch is exactly the valid-embedding
chunks mapped to records, so any chunk whose embeddings map lacks a `'text'`
vector of that length is excluded; and `_generate_embeddings` itself only
ever emits a `'text'` vector of length 1536. -/
theorem c6_storage_embedding_integrity (uid : List Char)
    (chunks : List ProcChunk) (available : Bool) (gen : Option (List ℚ)) :
    ((buildChunkRecords uid chunks).all fun r => r.embedding.length == 1536) = true ∧
    buildChunkRecords uid chunks =
      ((chunks.filter fun c => !invalidTextEmb c).map (mkStoreRecord uid)) ∧
    ((generateEmbeddings available gen).all fun p => p.2.length == 1536) = true := by
  refine ⟨buildChunkRecords_emb_len uid chunks,
    buildChunkRecords_eq_filter_map uid chunks, ?_⟩
  unfold generateEmbeddings
  rcases available with _ | _
  · rfl
  · rcases gen with _ | v
    · rfl
    · simp only [Bool.not_true, Bool.false_eq_true, if_false]
      by_cases h1 : v.isEmpty = true
      · rw [if_pos h1]
        rfl
      · rw [if_neg h1]
        by_cases h2 : (v.length != 1536) = true
        · rw [if_pos h2]
          rfl
        · rw [if_neg h2]
          have h3 : v.length = 1536 := by simpa using h2
          simp [h3]

/-! ## C7 — metadata aggregation is deterministic -/

/-- C7: document-level metadata aggregation is a pure function of the
processed-chunk list: two runs on equal inputs yield equal `DocumentMetadata`.
The only per-process ingredient, the interpreter's set-listing order used for
`schemas_applied` (held fixed within a process), appears explicitly as
`setOrder`; the translated body reads nothing else — no clock, randomness or
mutable state — which is what makes this statement provable. -/
theorem c7_aggregation_deterministic
    (setOrder : List (List Char) → List (List Char))
    (chunks1 chunks2 : List ProcChunk) (h : chunks1 = chunks2) :
    aggregateDocumentMetadata setOrder chunks1 =
      aggregateDocumentMetadata setOrder chunks2 := by
  rw [h]

def sampleProcChunk : ProcChunk :=
  ⟨"id1".data, "doc".data, "doc_chunk_000".data, 0, "hello".data, "text".data,
   PyVal.pnull, none, [("text".data, List.replicate 1536 (0 : ℚ))], "now".data⟩

/-- Witness for C7: two aggregation runs over the same singleton chunk list
agree. -/
theorem c7_witness :
    aggregateDocumentMetadata (fun l => l) [sampleProcChunk] =
      aggregateDocumentMetadata (fun l => l) [sampleProcChunk] :=
  c7_aggregation_deterministic (fun l => l) [sampleProcChunk] [sampleProcChunk] rfl

/-! ## C10 — the overlap seed is a bounded suffix of the previous buffer -/

def cfgZeroOv : ChunkCfg := ⟨10, 2, 0, true, true⟩

/-- Counterexample to C10 as stated: with a configured `overlap_size` of 0
(a configuration the spec's invariants allow), `text[-0:]` is the *whole*
string in Python, so `_get_overlap_text("abc")` returns `"abc "` of length
4 > overlap_size + 1 = 1. -/
theorem c10_counterexample :
    ¬((getOverlapText cfgZeroOv ("abc".data)).length ≤
        cfgZeroOv.overlapSize + 1) := by decide

/-- C10 (amended: for configurations with `overlap_size ≥ 1`): the overlap
seed has length at most `overlap_size + 1` and, after removing the single
appended trailing space (or as-is, in the short-text branch), is a
contiguous suffix of the input — it never contains text that was not at the
end of the previous buffer. -/
theorem c10_overlap_is_bounded_suffix (cfg : ChunkCfg) (text : List Char)
    (h : 1 ≤ cfg.overlapSize) :
    (getOverlapText cfg text).length ≤ cfg.overlapSize + 1 ∧
    ∃ s : List Char, s <:+ text ∧
      (getOverlapText cfg text = s ∨ getOverlapText cfg text = s ++ [' ']) := by
  unfold getOverlapText
  split
  · next hle => exact ⟨by omega, text, List.suffix_refl text, Or.inl rfl⟩
  · next hgt =>
    push_neg at hgt
    have h0 : (cfg.overlapSize == 0) = false := by
      simp only [beq_eq_false_iff_ne, ne_eq]
      omega
    rw [h0]
    simp only [Bool.false_eq_true, if_false]
    have hlen0 : (text.drop (text.length - cfg.overlapSize)).length =
        cfg.overlapSize := by
      rw [List.length_drop]
      omega
    have hsuf : overlapTrimWord (overlapTrimSentence cfg
        (text.drop (text.length - cfg.overlapSize))) <:+ text :=
      ((overlapTrimWord_suffix _).trans (overlapTrimSentence_suffix cfg _)).trans
        (List.drop_suffix _ text)
    have hlen : (overlapTrimWord (overlapTrimSentence cfg
        (text.drop (text.length - cfg.overlapSize)))).length ≤ cfg.overlapSize := by
      have h1 := (overlapTrimWord_suffix (overlapTrimSentence cfg
        (text.drop (text.length - cfg.overlapSize)))).length_le
      have h2 := (overlapTrimSentence_suffix cfg
        (text.drop (text.length - cfg.overlapSize))).length_le
      omega
    refine ⟨?_, overlapTrimWord (overlapTrimSentence cfg
      (text.drop (text.length - cfg.overlapSize))), hsuf, Or.inr rfl⟩
    rw [List.length_append, List.length_singleton]
    omega

def cfgOv3 : ChunkCfg := ⟨10, 2, 3, true, true⟩

/-- Witness for the amended C10 at overlap_size 3 on `"hello."`. -/
theorem c10_witness :
    (getOverlapText cfgOv3 ("hello.".data)).length ≤ cfgOv3.overlapSize + 1 ∧
    ∃ s : List Char, s <:+ ("hello.".data) ∧
      (getOverlapText cfgOv3 ("hello.".data) = s ∨
       getOverlapText cfgOv3 ("hello.".data) = s ++ [' ']) :=
  c10_overlap_is_bounded_suffix cfgOv3 ("hello.".data) (by decide)

/-! ## C2 — the size-optimization pass does not establish the size bounds -/

def cfgC2 : ChunkCfg := ⟨6, 3, 3, true, true⟩

/-- Counterexample to C2 as stated: with `max=6, min=3`, the input
`"a. bcdefgh"` (one paragraph of length 10 after normalization) yields the
optimized chunks `["a.", "bcdefgh", "a. bcdefgh"]`; among the non-final
chunks, `"a."` has length 2 < min_chunk_size and `"bcdefgh"` has length
7 > max_chunk_size — a single over-long sentence cannot be split, a short
flushed sub-chunk has no earlier chunk to merge into, and the oversized
original is retained alongside its sub-chunks. -/
theorem c2_counterexample :
    ¬((((chunkText cfgC2 ("doc".data) ("text".data)
          ("a. bcdefgh".data)).dropLast).all (withinBoundsB cfgC2)) = true) := by
  decide

/-- C2 (amended): the optimization pass *preserves* the size bounds rather
than establishing them — when every chunk entering the pass already has
`min_chunk_size ≤ len(content) ≤ max_chunk_size`, every chunk it produces
does too (such chunks are neither split nor merged, only re-indexed).
Chunks outside the bounds can survive the pass, as the counterexample
shows. -/
theorem c2_bounds_preserved (cfg : ChunkCfg) (docId : List Char)
    (chunks : List Chunk) (h : (chunks.all (withinBoundsB cfg)) = true) :
    ((optimizeChunkSizes cfg docId chunks).all (withinBoundsB cfg)) = true := by
  rw [List.all_eq_true] at h ⊢
  intro x hx
  unfold optimizeChunkSizes at hx
  have hx' : x.content ∈
      (reindexFrom 0 (chunks.foldl (optStep cfg docId) [])).map Chunk.content :=
    List.mem_map_of_mem Chunk.content hx
  rw [reindexFrom_map_content] at hx'
  rcases List.mem_map.1 hx' with ⟨y, hy, hyx⟩
  have hyb := foldl_optStep_within cfg docId chunks []
    (fun z hz => absurd hz (List.not_mem_nil z)) h y hy
  unfold withinBoundsB at hyb ⊢
  rw [hyx] at hyb
  exact hyb

def boundedChunk : Chunk :=
  { chunk_id := "doc_chunk_000".data, document_id := "doc".data,
    chunk_index := 0, content := "abcd".data, content_type := "text".data,
    metadata := ⟨"text".data, 4, 1, 0, 0, none, none, none, none, none⟩ }

/-- Witness for the amended C2: a within-bounds chunk passes through the
optimization pass still within bounds. -/
theorem c2_witness :
    ((optimizeChunkSizes cfgC2 ("doc".data) [boundedChunk]).all
      (withinBoundsB cfgC2)) = true :=
  c2_bounds_preserved cfgC2 ("doc".data) [boundedChunk] (by decide)

/-! ## C3 — concatenation does not reconstruct the input beyond one chunk -/

def cfgC3 : ChunkCfg := ⟨6, 1, 3, true, true⟩

/-- Counterexample to C3 as stated: on `"a. b. c."` with `max=6` the
pipeline produces `["a. b.", "c.", "a. b. c."]`; no consecutive pair shares
any overlap (so there are no overlap regions to ignore), yet the
concatenation `"a. b.c.a. b. c."` is not the paragraph concatenation
`"a. b. c."` — sentence splitting drops the inter-sentence space and the
unsplit original chunk is retained after its sub-chunks. -/
theorem c3_counterexample :
    consecNoneShareB (chunkText cfgC3 ("doc".data) ("text".data)
      ("a. b. c.".data)) = true ∧
    (chunkText cfgC3 ("doc".data) ("text".data) ("a. b. c.".data)).length = 3 ∧
    ((chunkText cfgC3 ("doc".data) ("text".data)
        ("a. b. c.".data)).map Chunk.content).flatten ≠
      (splitIntoParagraphs (cleanText ("a. b. c.".data))).flatten := by
  decide

/-- C3 (amended): the reconstruction holds exactly on inputs that fit into a
single chunk: when the normalized text has length at most `max_chunk_size`,
the concatenation of the produced chunks' contents equals the concatenation
of the normalized input's paragraphs.  (Normalization collapses every
whitespace run — including blank lines — to a single space before paragraph
splitting, so the paragraph list is always the single normalized string.)
For longer inputs the reconstruction fails, as the counterexample shows. -/
theorem c3_reconstruction_within_max (cfg : ChunkCfg) (docId ctype t : List Char)
    (h : (cleanText t).length ≤ cfg.maxChunkSize) :
    ((chunkText cfg docId ctype t).map Chunk.content).flatten =
      (splitIntoParagraphs (cleanText t)).flatten := by
  by_cases hne : cleanText t = []
  · rw [chunkText_of_clean_nil cfg docId ctype t hne, hne, splitIntoParagraphs_nil]
    rfl
  · rw [chunkText_single_chunk cfg docId ctype t hne h,
        splitIntoParagraphs_single (cleanText_no_nl t) (cleanText_stripped t) hne]
    rfl

/-- Witness for the amended C3 on a short input under the default config. -/
theorem c3_witness :
    ((chunkText defaultChunkCfg ("doc".data) ("text".data)
        ("hello world".data)).map Chunk.content).flatten =
      (splitIntoParagraphs (cleanText ("hello world".data))).flatten :=
  c3_reconstruction_within_max defaultChunkCfg ("doc".data) ("text".data)
    ("hello world".data) (by decide)

/-! ## C4 — consecutive chunks need not overlap when a split occurs -/

/-- Counterexample to C4 as stated: `"a. b. c."` normalizes to a single
paragraph of length 8 > max_chunk_size = 6, so the input required a split,
yet none of the consecutive pairs among the three produced chunks shares any
non-empty suffix/prefix overlap — the overlap-seeding path of the
accumulation loop never runs (normalization leaves one paragraph), and the
chunks come from disjoint sentence splitting plus the retained original. -/
theorem c4_counterexample :
    cfgC3.maxChunkSize < (cleanText ("a. b. c.".data)).length ∧
    (chunkText cfgC3 ("doc".data) ("text".data) ("a. b. c.".data)).length = 3 ∧
    consecAllShareB (chunkText cfgC3 ("doc".data) ("text".data)
      ("a. b. c.".data)) = false := by
  decide

/-- C4 (amended): only the second half of the claim holds — when the
normalized text fits within `max_chunk_size` (no split required), the
pipeline produces at most one chunk, so no pair of consecutive chunks exists
and in particular none shares an overlap.  When a split is required,
consecutive chunks need not share any overlap (counterexample). -/
theorem c4_no_overlap_without_split (cfg : ChunkCfg) (docId ctype t : List Char)
    (h : (cleanText t).length ≤ cfg.maxChunkSize) :
    (chunkText cfg docId ctype t).length ≤ 1 ∧
    consecNoneShareB (chunkText cfg docId ctype t) = true := by
  by_cases hne : cleanText t = []
  · rw [chunkText_of_clean_nil cfg docId ctype t hne]
    exact ⟨by simp, rfl⟩
  · rw [chunkText_single_chunk cfg docId ctype t hne h]
    exact ⟨by simp, rfl⟩

/-- Witness for the amended C4 on a short input under the default config. -/
theorem c4_witness :
    (chunkText defaultChunkCfg ("doc".data) ("text".data)
      ("short text".data)).length ≤ 1 ∧
    consecNoneShareB (chunkText defaultChunkCfg ("doc".data) ("text".data)
      ("short text".data)) = true :=
  c4_no_overlap_without_split defaultChunkCfg ("doc".data) ("text".data)
    ("short text".data) (by decide)

/-! ## C5 — index contiguity holds for the optimization pass, not per document -/

def docWithTable : DocContent := ⟨"ab".data, [⟨"t1".data, PyVal.pnull⟩], []⟩

/-- Counterexample to C5 as stated: a document with text and one table
produces chunks with indices `[0, 1000]` (tables are offset by 1000 to sort
after text), which are strictly increasing but not a contiguous integer
sequence. -/
theorem c5_counterexample :
    ¬(idxContiguous (chunkContent cfgC3 ("doc".data) docWithTable) ∧
      idxStrictIncrB (chunkContent cfgC3 ("doc".data) docWithTable) = true) := by
  intro hcl
  have h1 := hcl.1
  unfold idxContiguous at h1
  revert h1
  decide

/-- C5 (amended): the re-index loop at the end of the size-optimization pass
makes the *text* chunks' indices exactly `0, 1, ..., n-1` — strictly
increasing and contiguous — for every input chunk list; `chunk_content`
additionally appends table chunks at `1000 + i` and image chunks at
`2000 + i`, so a document containing tables or images has strictly
increasing but non-contiguous indices (counterexample). -/
theorem c5_optimize_reindex_contiguous (cfg : ChunkCfg) (docId : List Char)
    (chunks : List Chunk) :
    idxContiguous (optimizeChunkSizes cfg docId chunks) := by
  unfold idxContiguous optimizeChunkSizes
  rw [reindexFrom_map_idx, reindexFrom_length]
